import Mathlib

/-!
Verification development for the Dataview-to-static-Markdown conversion engine
of the quartz-obsidian-builder repository (`dataview_converter.py`).

The program text is shallowly embedded: document text is `List Char`,
paths are lists of path segments relative to the vault root, and the file
system is an explicit `Vault` value (files with contents, plus directories).
The third-party YAML parser (`yaml.safe_load`) is abstracted as an explicit
parameter `yp : YParse`; all theorems quantify over it.  Everything else is
translated directly from the source.
-/

namespace DataviewConverter

/-! ### String primitives (Python string semantics on `List Char`) -/

/-- Python `str` whitespace (the characters stripped by `str.strip()`). -/
def pyIsSpace (c : Char) : Bool :=
  c == ' ' || c == '\t' || c == '\n' || c == '\r' || c == Char.ofNat 11 || c == Char.ofNat 12

/-- Drop characters satisfying `p` from both ends of a char list. -/
def dropEnds (p : Char → Bool) (s : List Char) : List Char :=
  ((s.dropWhile p).reverse.dropWhile p).reverse

/-- Python `str.strip()`. -/
def pyStrip (s : List Char) : List Char := dropEnds pyIsSpace s

/-- Python `.strip('"').strip("'")` as used on `FROM` arguments. -/
def stripQuotes (s : List Char) : List Char :=
  dropEnds (fun c => c == '\'') (dropEnds (fun c => c == '"') s)

/-- ASCII lowercase image of a char list. -/
def toLowerL (s : List Char) : List Char := s.map Char.toLower

/-- ASCII uppercase image of a char list. -/
def toUpperL (s : List Char) : List Char := s.map Char.toUpper

/-- `pat` is a literal leading part of `s`. -/
def listStarts (pat s : List Char) : Bool :=
  match pat, s with
  | [], _ => true
  | _ :: _, [] => false
  | p :: ps, c :: cs => p == c && listStarts ps cs

/-- `pat` is a leading part of `s` up to ASCII case. -/
def ciStarts (pat s : List Char) : Bool :=
  match pat, s with
  | [], _ => true
  | _ :: _, [] => false
  | p :: ps, c :: cs => p.toLower == c.toLower && ciStarts ps cs

/-- `s.upper().startswith(kw)` from the source's keyword tests. -/
def upStarts (kw s : List Char) : Bool := listStarts kw (toUpperL s)

/-- `s` ends with the literal `pat`. -/
def listEnds (pat s : List Char) : Bool := listStarts pat.reverse s.reverse

/-- Split a char list on every occurrence of the character `ch`
(Python `str.split(ch)` on a 1-char separator, without maxsplit). -/
def splitOnChar (ch : Char) : List Char → List (List Char)
  | [] => [[]]
  | c :: r =>
    if c == ch then [] :: splitOnChar ch r
    else
      match splitOnChar ch r with
      | [] => [[c]]
      | h :: t => (c :: h) :: t

/-- First occurrence of the literal substring `pat` in `s`:
returns `(before, after)` around the match, or `none`. -/
def findSub (pat : List Char) : List Char → Option (List Char × List Char)
  | [] => if pat.isEmpty then some ([], []) else none
  | c :: r =>
    if listStarts pat (c :: r) then some ([], (c :: r).drop pat.length)
    else
      match findSub pat r with
      | some (a, rest) => some (c :: a, rest)
      | none => none

/-- One line plus the remainder after its terminator
(`\n`, `\r\n` or `\r`), or `none` when the input has no terminator. -/
def takeLine (acc : List Char) : List Char → List Char × Option (List Char)
  | [] => (acc.reverse, none)
  | '\r' :: '\n' :: r => (acc.reverse, some r)
  | '\n' :: r => (acc.reverse, some r)
  | '\r' :: r => (acc.reverse, some r)
  | c :: r => takeLine (c :: acc) r

/-- Fuelled body of Python `str.splitlines()`. -/
def pySplitlinesF : Nat → List Char → List (List Char)
  | _, [] => []
  | 0, s => [s]
  | f + 1, s =>
    match takeLine [] s with
    | (l, none) => [l]
    | (l, some r) => l :: pySplitlinesF f r

/-- Python `str.splitlines()`: no entry for a trailing terminator, `[]` on `""`. -/
def pySplitlines (s : List Char) : List (List Char) := pySplitlinesF (s.length + 1) s

/-- Python `\w` (ASCII approximation, as in the source's `\b` boundaries). -/
def isWordChar (c : Char) : Bool := c.isAlphanum || c == '_'

/-- Does the next char (if any) continue a word?  Used for the trailing `\b`. -/
def nextIsWord (s : List Char) : Bool :=
  match s with
  | [] => false
  | c :: _ => isWordChar c

/-- Fuelled scanner for `re.split(r"\bKW\b|...", s, flags=re.IGNORECASE)`:
splits at every occurrence of one of the keywords `kws` that sits between
word boundaries, case-insensitively.  `prevW` records whether the previous
character was a word character. -/
def reSplitKwF (kws : List (List Char)) : Nat → Bool → List Char → List Char → List (List Char)
  | 0, _, acc, s => [acc.reverse ++ s]
  | _ + 1, _, acc, [] => [acc.reverse]
  | f + 1, prevW, acc, c :: rest =>
    match (if prevW then none
           else kws.find? fun kw =>
             ciStarts kw (c :: rest) && !nextIsWord ((c :: rest).drop kw.length)) with
    | some kw =>
      acc.reverse :: reSplitKwF kws f (isWordChar (kw.getLastD 'M')) [] ((c :: rest).drop kw.length)
    | none => reSplitKwF kws f (isWordChar c) (c :: acc) rest

/-- `re.split` on word-bounded case-insensitive keywords. -/
def reSplitKw (kws : List (List Char)) (s : List Char) : List (List Char) :=
  reSplitKwF kws (s.length + 1) false [] s

/-! ### File-system model

A path is a list of segments relative to the vault root (the root itself is
`[]`).  A `Vault` lists the regular files (path, content) and the directory
paths.  `rglob`-style enumeration and existence tests are defined on it. -/

/-- A file-system path, as segments relative to the vault root. -/
abbrev FsPath := List (List Char)

/-- The file-system state seen by the converter. -/
structure Vault where
  files : List (FsPath × List Char)
  dirs : List FsPath
deriving DecidableEq

/-- The path exists (as a file or as a directory): `Path.exists()`. -/
def pexists (v : Vault) (p : FsPath) : Bool :=
  v.dirs.any (fun d => d == p) || v.files.any (fun e => e.1 == p)

/-- The path is a directory: `Path.is_dir()`. -/
def isDir (v : Vault) (p : FsPath) : Bool := v.dirs.any (fun d => d == p)

/-- The file name (last segment) ends in `.md` (fnmatch `*.md`). -/
def endsMd (p : FsPath) : Bool := listEnds ".md".data (p.getLastD [])

/-- Segment-level list-prefix test used by directory enumeration. -/
def segStarts (base p : FsPath) : Bool :=
  match base, p with
  | [], _ => true
  | _ :: _, [] => false
  | b :: bs, c :: cs => b == c && segStarts bs cs

/-- `base.rglob("*.md")`: the `.md` files strictly below `base`, in the
(deterministic) enumeration order of the vault's file list. -/
def mdFilesUnder (v : Vault) (base : FsPath) : List FsPath :=
  (v.files.map Prod.fst).filter fun p => segStarts base p && !(p == base) && endsMd p

/-- `path.read_text()`, defaulting to `[]` for an absent path. -/
def contentOf (v : Vault) (p : FsPath) : List Char :=
  ((v.files.find? fun e => e.1 == p).map Prod.snd).getD []

/-- Write `c` at `p`: overwrite an existing entry, else append one
(`write_text` / `shutil.copy2`). -/
def upsert (v : Vault) (p : FsPath) (c : List Char) : Vault :=
  if v.files.any (fun e => e.1 == p) then
    ⟨v.files.map fun e => if e.1 == p then (e.1, c) else e, v.dirs⟩
  else ⟨v.files ++ [(p, c)], v.dirs⟩

/-- `vault_root / from_path`: split a (relative) path string into segments,
dropping empty and `.` components as `pathlib` does. -/
def pathSegs (s : List Char) : FsPath :=
  (splitOnChar '/' s).filter fun seg => !seg.isEmpty && !(seg == ".".data)

/-- `Path.stem`: the final segment without its (pathlib) suffix. -/
def stemOf (name : List Char) : List Char :=
  match name.reverse.findIdx? (fun c => c == '.') with
  | none => name
  | some j =>
    let i := name.length - 1 - j
    if 0 < i ∧ i < name.length - 1 then name.take i else name

/-- `str(path.relative_to(vault_root))` for our root-relative paths. -/
def relPath (p : FsPath) : List Char := List.intercalate "/".data p

/-- `fp.with_suffix(fp.suffix + ".bak")`, which is the name with `.bak`
appended. -/
def bakPath (p : FsPath) : FsPath := p.dropLast ++ [p.getLastD [] ++ ".bak".data]

/-! ### Metadata extraction (`_extract_frontmatter`, `_extract_inline_kv`)

`yaml.safe_load` is third-party code; it is abstracted as a parameter.
Two levels of fidelity are used.  The *string-map* level below
(`YParse`) types the parse result as an already-stringified
string-to-string mapping; it is a restriction of the yaml interface,
valid exactly when the frontmatter is absent, unparseable, or parses to a
mapping with stringifiable values — the cases in which `_value_for_column`
is well-behaved.  The *value* level (`YParseY`, further down) keeps the
full YAML value and also models the runtime errors the source hits on
non-mapping results; `valueForColumnY_lift` proves the string-map level is
the restriction of the value level to string-valued mappings. -/

/-- Abstracted `yaml.safe_load`, restricted to an already-stringified
mapping result (`none` models a parse failure or a falsy result, both of
which the source turns into `{}`).  See `YParseY` for the unrestricted
interface. -/
abbrev YParse := List Char → Option (List (List Char × List Char))

/-- Python-dict lookup on an association list (later binding wins). -/
def pyGet (m : List (List Char × List Char)) (k : List Char) : Option (List Char) :=
  (m.reverse.find? fun e => e.1 == k).map Prod.snd

/-- Python-dict membership (`k in m`). -/
def pyHas (m : List (List Char × List Char)) (k : List Char) : Bool :=
  m.any fun e => e.1 == k

/-- `_extract_frontmatter`: the mapping parsed from between the first two
`---` markers of a text starting with `---`, else `{}`. -/
def extractFrontmatter (yp : YParse) (t : List Char) : List (List Char × List Char) :=
  if listStarts "---".data t then
    match findSub "---".data t with
    | none => []
    | some (_, rest1) =>
      match findSub "---".data rest1 with
      | none => []
      | some (mid, _) => (yp mid).getD []
  else []

/-- `_extract_inline_kv`: every line containing `::`, split at its first
occurrence, both sides stripped; a repeated key keeps the later value. -/
def extractInlineKV (t : List Char) : List (List Char × List Char) :=
  (pySplitlines t).filterMap fun line =>
    match findSub "::".data line with
    | some (k, val) => some (pyStrip k, pyStrip val)
    | none => none

/-! ### Corpus scanning (`_gather_files`) -/

/-- The base directory `_gather_files` scans from: the root for a missing or
falsy argument; otherwise the argument is stripped of whitespace and quote
characters and joined to the root, and that path is used whenever it exists
(directory or not), with a fallback to the root when it does not exist. -/
def gatherBase (v : Vault) (a : Option (List Char)) : FsPath :=
  match a with
  | none => []
  | some s =>
    if s.isEmpty then []
    else
      let target := pathSegs (stripQuotes (pyStrip s))
      if pexists v target && isDir v target then target
      else if pexists v target then target
      else []

/-- `_gather_files`: the `.md` files below the computed base. -/
def gatherFiles (v : Vault) (a : Option (List Char)) : List FsPath :=
  mdFilesUnder v (gatherBase v a)

/-! ### Column resolution (`_value_for_column`) -/

/-- The case-insensitive `file.name` / `file` pseudo-field test. -/
def isPseudoName (col : List Char) : Bool :=
  toLowerL col == "file.name".data || toLowerL col == "file".data

/-- The case-insensitive `file.path` / `path` pseudo-field test. -/
def isPseudoPath (col : List Char) : Bool :=
  toLowerL col == "file.path".data || toLowerL col == "path".data

/-- The case-insensitive `title` / `name` fallback test. -/
def isTitleName (col : List Char) : Bool :=
  toLowerL col == "title".data || toLowerL col == "name".data

/-- `_value_for_column(md_text, col, file_path, vault_root)` at the
string-map level.  Under this restriction line 74's `str(fm.get(col))` and
line 80's raw `fm["title"]` coincide (both are the stored string);
`valueForColumnY` below models the unrestricted function, where line 80
returns the header value *without* `str()` and non-mapping frontmatter
makes the membership tests raise. -/
def valueForColumn (yp : YParse) (mdText : List Char) (col0 : List Char) (fp : FsPath) :
    List Char :=
  let col := pyStrip col0
  if isPseudoName col then stemOf (fp.getLastD [])
  else if isPseudoPath col then relPath fp
  else
    let fm := extractFrontmatter yp mdText
    let inline := extractInlineKV mdText
    if pyHas fm col then (pyGet fm col).getD []
    else if pyHas inline col then (pyGet inline col).getD []
    else if isTitleName col then
      if pyHas fm "title".data then (pyGet fm "title".data).getD []
      else stemOf (fp.getLastD [])
    else []

/-! ### Rendering (`_render_md_table`, `_render_md_list`) -/

/-- `val.replace("|", "\\|")`. -/
def escapePipes : List Char → List Char
  | [] => []
  | c :: r => if c == '|' then '\\' :: '|' :: escapePipes r else c :: escapePipes r

/-- Python `sep.join(parts)`. -/
def pyJoin (sep : List Char) : List (List Char) → List Char
  | [] => []
  | [x] => x
  | x :: y :: rest => x ++ sep ++ pyJoin sep (y :: rest)

/-- `"| " + " | ".join(cells) + " |"`. -/
def rowLine (cells : List (List Char)) : List Char :=
  "| ".data ++ pyJoin " | ".data cells ++ " |".data

/-- `_render_md_table(headers, rows)`. -/
def renderTable (headers : List (List Char)) (rows : List (List (List Char))) : List Char :=
  '\n' :: rowLine headers ++ '\n' :: rowLine (List.replicate headers.length "---".data)
    ++ '\n' :: pyJoin ['\n'] (rows.map rowLine) ++ ['\n']

/-- `_render_md_list(items)`. -/
def renderList (items : List (List Char)) : List Char :=
  '\n' :: pyJoin ['\n'] (items.map fun it => "- ".data ++ it) ++ ['\n']

/-! ### Query-block parsing and processing (`_process_block`) -/

/-- Structured log events, mirroring the source's `logger(...)` calls. -/
inductive LogEvent where
  | found (n : Nat)
  | convertedTable (fromArg : Option (List Char)) (fp : FsPath)
  | convertedList (fromArg : Option (List Char)) (fp : FsPath)
  | skippedComplex (fp : FsPath)
  | backedUp (p : FsPath)
  | updated (p : FsPath)
deriving DecidableEq

/-- `re.split(r"\bFROM\b", first, flags=re.IGNORECASE)`. -/
def splitFROM (s : List Char) : List (List Char) := reSplitKw ["FROM".data] s

/-- `re.split(r"\bWHERE\b|\bSORT\b", s, flags=re.IGNORECASE)`. -/
def splitWHERESORT (s : List Char) : List (List Char) :=
  reSplitKw ["WHERE".data, "SORT".data] s

/-- The TABLE column list parsed from the header line: the text between the
`TABLE` keyword and the first `FROM`, comma-split, trimmed, empties dropped. -/
def tableColsOf (first : List Char) : List (List Char) :=
  let colsPart := pyStrip ((pyStrip ((splitFROM first).headD [])).drop 5)
  ((splitOnChar ',' colsPart).map pyStrip).filter fun c => !c.isEmpty

/-- The `FROM` argument parsed from the header line: the text between the
first and second `FROM`, truncated at the first `WHERE`/`SORT`, stripped of
whitespace and quotes; `none` when no `FROM` is present. -/
def fromArgOf (first : List Char) : Option (List Char) :=
  match splitFROM first with
  | _ :: p1 :: _ =>
    some (stripQuotes (pyStrip ((splitWHERESORT (pyStrip p1)).headD [])))
  | _ => none

/-- The table row resolved for one scanned file (pipes escaped, `or ""` is
the identity on strings). -/
def rowFor (yp : YParse) (v : Vault) (cols : List (List Char)) (f : FsPath) :
    List (List Char) :=
  cols.map fun c => escapePipes (valueForColumn yp (contentOf v f) c f)

/-- The list item resolved for one scanned file: `[title](relative-path)`,
with the file stem when the `title` resolution is empty. -/
def itemFor (yp : YParse) (v : Vault) (f : FsPath) : List Char :=
  let t0 := valueForColumn yp (contentOf v f) "title".data f
  let t := if t0.isEmpty then stemOf (f.getLastD []) else t0
  '[' :: t ++ "](".data ++ relPath f ++ [')']

/-- `_process_block` on the inner text of one fenced span: `none` means the
span is kept verbatim (`match.group(0)`), `some r` that it is replaced by
`r` and the document marked changed.  The second component collects the log
events the block emits. -/
def processInner (yp : YParse) (v : Vault) (fp : FsPath) (inner : List Char) :
    Option (List Char) × List LogEvent :=
  let block := pyStrip inner
  match pySplitlines block with
  | [] => (none, [])
  | l0 :: _ =>
    let first := pyStrip l0
    if upStarts "TABLE".data first then
      let cols := tableColsOf first
      let fromArg := fromArgOf first
      let files := gatherFiles v fromArg
      let rows := files.map (rowFor yp v cols)
      if cols.isEmpty then (none, [])
      else (some (renderTable cols rows), [.convertedTable fromArg fp])
    else if upStarts "LIST".data first then
      let fromArg := fromArgOf first
      let files := gatherFiles v fromArg
      (some (renderList (files.map (itemFor yp v))), [.convertedList fromArg fp])
    else (none, [.skippedComplex fp])

/-! ### Fence scanning (`DATABLOCK_RE`) and substitution (`re.sub`) -/

/-- A segment of a document under `DATABLOCK_RE`: plain text between
matches, or a matched span with its original text and its group-1 inner
text. -/
inductive Seg where
  | plain (s : List Char)
  | block (orig inner : List Char)
deriving DecidableEq

/-- First case-insensitive occurrence of `pat` in `s`:
`(before, matched-original, after)`. -/
def findCI (pat : List Char) : List Char → Option (List Char × List Char × List Char)
  | [] => if pat.isEmpty then some ([], [], []) else none
  | c :: r =>
    if ciStarts pat (c :: r) then some ([], (c :: r).take pat.length, (c :: r).drop pat.length)
    else
      match findCI pat r with
      | some (a, b, rest) => some (c :: a, b, rest)
      | none => none

/-- The opening delimiter of `DATABLOCK_RE`. -/
def opener : List Char := "```dataview".data

/-- The closing delimiter of `DATABLOCK_RE`. -/
def closer : List Char := "```".data

/-- Fuelled scan of a text into the lazy, leftmost-first match segments of
`DATABLOCK_RE`: a match is the earliest opener followed by the earliest
closer; if the earliest opener has no closer after it, nothing matches. -/
def scanTextF : Nat → List Char → List Seg
  | 0, s => if s.isEmpty then [] else [.plain s]
  | f + 1, s =>
    match findCI opener s with
    | none => if s.isEmpty then [] else [.plain s]
    | some (pre, op, rest) =>
      match findCI closer rest with
      | none => if s.isEmpty then [] else [.plain s]
      | some (inner, cl, rest2) =>
        .plain pre :: .block (op ++ inner ++ cl) inner :: scanTextF f rest2

/-- The match segments of a document text. -/
def scanText (s : List Char) : List Seg := scanTextF (s.length + 1) s

/-- The original text a segment covers (`match.group(0)` for a block). -/
def segOrig : Seg → List Char
  | .plain s => s
  | .block orig _ => orig

/-- Concatenate segments back into text (plain text and original spans). -/
def segsJoin (l : List Seg) : List Char := l.foldr (fun s acc => segOrig s ++ acc) []

/-- The substitution `re.sub` performs on one segment: the replacement text,
whether this span was substituted, and the log events it emitted. -/
def applySeg (yp : YParse) (v : Vault) (fp : FsPath) : Seg → List Char × Bool × List LogEvent
  | .plain s => (s, false, [])
  | .block orig inner =>
    match processInner yp v fp inner with
    | (none, lg) => (orig, false, lg)
    | (some r, lg) => (r, true, lg)

/-- `DATABLOCK_RE.sub(_process_block, text)` together with the `changed`
flag and the emitted log events. -/
def subText (yp : YParse) (v : Vault) (fp : FsPath) (t : List Char) :
    List Char × Bool × List LogEvent :=
  let parts := (scanText t).map (applySeg yp v fp)
  (parts.foldr (fun a b => a.1 ++ b) [],
   parts.any (fun a => a.2.1),
   parts.foldr (fun a b => a.2.2 ++ b) [])

/-! ### Per-document conversion and the vault walk
(`convert_dataview_in_vault`) -/

/-- The body of the per-file loop: read, substitute, and when changed,
optionally back up (`shutil.copy2` before the write) and write back.
Returns the new file-system state, the log events, and the changed flag. -/
def convertStep (yp : YParse) (backup : Bool) (v : Vault) (fp : FsPath) :
    Vault × List LogEvent × Bool :=
  let text := contentOf v fp
  let r := subText yp v fp text
  if r.2.1 then
    let v1 := if backup then upsert v (bakPath fp) text else v
    let lg1 : List LogEvent := if backup then [.backedUp (bakPath fp)] else []
    (upsert v1 fp r.1, r.2.2 ++ lg1 ++ [.updated fp], true)
  else (v, r.2.2, false)

/-- `convert_dataview_in_vault`: fails when the root does not exist, else
walks every `.md` file under the root in enumeration order, converting each
in turn against the current file-system state. -/
def convertVault (yp : YParse) (backup : Bool) (v : Vault) :
    Except (List Char) (Vault × List LogEvent) :=
  if pexists v [] then
    let mds := mdFilesUnder v []
    let r := mds.foldl
      (fun (acc : Vault × List LogEvent) fp =>
        let s := convertStep yp backup acc.1 fp
        (s.1, acc.2 ++ s.2.1))
      (v, [LogEvent.found mds.length])
    .ok r
  else .error "Vault not found".data

/-! ### Markdown table-cell model

A rendered table row is split into cells at every `|` that is not
immediately preceded by a backslash (the escape the source emits for pipes
inside values).  `mdSplit` performs that split; `scanClean` says that a
char run contains no such cell delimiter when entered after `prev`. -/

/-- Accumulating splitter at unescaped pipes; `prev` is the previous
character seen. -/
def mdSplitAux (prev : Char) (acc : List Char) : List Char → List (List Char)
  | [] => [acc.reverse]
  | c :: rest =>
    if c == '|' && !(prev == '\\') then acc.reverse :: mdSplitAux c [] rest
    else mdSplitAux c (c :: acc) rest

/-- Split a rendered row at every pipe not immediately preceded by a
backslash. -/
def mdSplit (s : List Char) : List (List Char) := mdSplitAux ' ' [] s

/-- No unescaped pipe occurs in `s` when scanned after character `prev`. -/
def scanClean (prev : Char) : List Char → Bool
  | [] => true
  | c :: rest => (!(c == '|') || prev == '\\') && scanClean c rest

/-- Every pipe in `s` is immediately preceded by a backslash (scanning from
a neutral previous character). -/
def pipesEscaped (s : List Char) : Bool := scanClean ' ' s

/-! ### Helper lemmas -/

theorem findCI_join (pat : List Char) :
    ∀ s a b r, findCI pat s = some (a, b, r) → a ++ (b ++ r) = s := by
  intro s
  induction s with
  | nil =>
    intro a b r h
    by_cases hp : pat.isEmpty <;> simp [findCI, hp] at h
    obtain ⟨ha, hb, hr⟩ := h
    subst ha; subst hb; subst hr; rfl
  | cons c cs ih =>
    intro a b r h
    rw [findCI] at h
    by_cases hst : ciStarts pat (c :: cs) = true
    · rw [if_pos hst] at h
      simp only [Option.some.injEq, Prod.mk.injEq] at h
      obtain ⟨ha, hb, hr⟩ := h
      subst ha; subst hb; subst hr
      simp
    · rw [if_neg hst] at h
      cases hrec : findCI pat cs with
      | none => rw [hrec] at h; exact absurd h (by simp)
      | some t =>
        obtain ⟨a2, b2, r2⟩ := t
        rw [hrec] at h
        simp only [Option.some.injEq, Prod.mk.injEq] at h
        obtain ⟨ha, hb, hr⟩ := h
        subst ha; subst hb; subst hr
        have hx := ih a2 b2 r2 hrec
        simp [List.cons_append, hx]

theorem segsJoin_scanTextF :
    ∀ f s, segsJoin (scanTextF f s) = s := by
  intro f
  induction f with
  | zero =>
    intro s
    by_cases h : s.isEmpty
    · have : s = [] := by simpa [List.isEmpty_iff] using h
      subst this; simp [scanTextF, segsJoin]
    · simp [scanTextF, h, segsJoin, segOrig]
  | succ f ih =>
    intro s
    rw [scanTextF]
    split
    · by_cases h : s.isEmpty
      · have : s = [] := by simpa [List.isEmpty_iff] using h
        subst this; simp [segsJoin]
      · simp [h, segsJoin, segOrig]
    · next pre op rest hfind =>
      split
      · by_cases h : s.isEmpty
        · have : s = [] := by simpa [List.isEmpty_iff] using h
          subst this; simp [segsJoin]
        · simp [h, segsJoin, segOrig]
      · next inner cl rest2 hfind2 =>
        have h1 := findCI_join opener s _ _ _ hfind
        have h2 := findCI_join closer rest _ _ _ hfind2
        simp [segsJoin, segOrig] at ih ⊢
        rw [ih]
        rw [← h1, ← h2]

theorem segsJoin_scanText (s : List Char) : segsJoin (scanText s) = s :=
  segsJoin_scanTextF _ s

/-- A span whose substitution left it unchanged contributes its original
text. -/
theorem applySeg_unchanged (yp : YParse) (v : Vault) (fp : FsPath) (seg : Seg)
    (h : (applySeg yp v fp seg).2.1 = false) :
    (applySeg yp v fp seg).1 = segOrig seg := by
  cases seg with
  | plain s => rfl
  | block orig inner =>
    unfold applySeg at h ⊢
    cases hp : processInner yp v fp inner with
    | mk o lg =>
      cases o with
      | none => simp [hp, segOrig]
      | some r => simp [hp] at h

/-- When no span of `t` is substituted, the substitution output is `t`
itself and the changed flag is false. -/
theorem subText_of_none (yp : YParse) (v : Vault) (fp : FsPath) (t : List Char)
    (h : ∀ seg ∈ scanText t, (applySeg yp v fp seg).2.1 = false) :
    (subText yp v fp t).1 = t ∧ (subText yp v fp t).2.1 = false := by
  have key : ∀ l : List Seg, (∀ seg ∈ l, (applySeg yp v fp seg).2.1 = false) →
      ((l.map (applySeg yp v fp)).foldr (fun a b => a.1 ++ b) [] = segsJoin l ∧
       (l.map (applySeg yp v fp)).any (fun a => a.2.1) = false) := by
    intro l
    induction l with
    | nil => intro _; simp [segsJoin]
    | cons x xs ih =>
      intro hall
      have hx := hall x (List.mem_cons_self x xs)
      have hxs := ih fun s hs => hall s (List.mem_cons_of_mem x hs)
      constructor
      · simp only [List.map_cons, List.foldr_cons, hxs.1, segsJoin, List.foldr_cons]
        rw [applySeg_unchanged yp v fp x hx]
      · simp [hx, hxs.2]
  have k := key (scanText t) h
  constructor
  · show ((scanText t).map (applySeg yp v fp)).foldr (fun a b => a.1 ++ b) [] = t
    rw [k.1, segsJoin_scanText]
  · exact k.2

theorem getLastD_cons_eq (a : Char) (l : List Char) (d : Char) :
    (a :: l).getLastD d = l.getLastD a := by
  cases l <;> simp [List.getLastD]

theorem getLastD_pad (c : List Char) (d : Char) :
    (' ' :: (c ++ [' '])).getLastD d = ' ' := by
  have : (' ' :: (c ++ [' '])) = (' ' :: c) ++ [' '] := by simp
  rw [this]
  simp [List.getLastD, List.getLast?_concat]

theorem mdSplitAux_clean_append :
    ∀ (s : List Char) (prev : Char) (acc t : List Char), scanClean prev s = true →
      mdSplitAux prev acc (s ++ t) = mdSplitAux (s.getLastD prev) (s.reverse ++ acc) t := by
  intro s
  induction s with
  | nil => intro prev acc t _; simp [List.getLastD]
  | cons c cs ih =>
    intro prev acc t h
    rw [scanClean] at h
    obtain ⟨h1, h2⟩ := Bool.and_eq_true .. ▸ h
    have hcond : (c == '|' && !(prev == '\\')) = false := by
      cases hc : (c == '|') <;> cases hpv : (prev == '\\') <;> simp_all
    rw [List.cons_append, mdSplitAux, hcond]
    simp only [Bool.false_eq_true, if_false]
    rw [ih c (c :: acc) t h2, getLastD_cons_eq]
    simp

theorem scanClean_escape (v : List Char) :
    ∀ p, scanClean p (escapePipes v ++ [' ']) = true := by
  induction v with
  | nil => intro p; simp [escapePipes, scanClean]
  | cons c r ih =>
    intro p
    by_cases hc : c == '|'
    · simp [escapePipes, hc, scanClean, ih]
    · simp only [escapePipes, hc, Bool.false_eq_true, if_false, List.cons_append, scanClean]
      simp [hc, ih]

theorem scanClean_prfx :
    ∀ (s : List Char) (p : Char) (t : List Char),
      scanClean p (s ++ t) = true → scanClean p s = true := by
  intro s
  induction s with
  | nil => intro p t _; rfl
  | cons c cs ih =>
    intro p t h
    rw [List.cons_append, scanClean] at h
    obtain ⟨h1, h2⟩ := Bool.and_eq_true .. ▸ h
    rw [scanClean, h1, ih c t h2]
    rfl

/-- Every pipe the escape introduces is preceded by a backslash. -/
theorem pipesEscaped_escape (v : List Char) : pipesEscaped (escapePipes v) = true :=
  scanClean_prfx (escapePipes v) ' ' [' '] (scanClean_escape v ' ')

/-- A cell with no pipe at all scans clean (with its padding space). -/
theorem scanClean_nopipe (c : List Char) (hnp : '|' ∉ c) :
    ∀ p, scanClean p (c ++ [' ']) = true := by
  induction c with
  | nil => intro p; simp [scanClean]
  | cons x xs ih =>
    intro p
    have hx : (x == '|') = false := by
      simp only [beq_eq_false_iff_ne]
      intro hcontra
      exact hnp (hcontra ▸ List.mem_cons_self x xs)
    rw [List.cons_append, scanClean, hx]
    have := ih (fun hm => hnp (List.mem_cons_of_mem x hm)) x
    simp [this]

/-- The padded form of a clean cell scans clean from any previous char. -/
theorem scanClean_pad (c : List Char) (hcl : ∀ p, scanClean p (c ++ [' ']) = true) :
    ∀ p, scanClean p (' ' :: (c ++ [' '])) = true := by
  intro p
  rw [scanClean]
  simp [hcl ' ']

theorem mdSplitAux_cells :
    ∀ (cells : List (List Char)), cells ≠ [] →
      (∀ c ∈ cells, ∀ p, scanClean p (c ++ [' ']) = true) →
      mdSplitAux '|' [] ((' ' :: pyJoin " | ".data cells) ++ [' ', '|']) =
        cells.map (fun c => ' ' :: (c ++ [' '])) ++ [[]] := by
  intro cells
  induction cells with
  | nil => intro h _; exact absurd rfl h
  | cons c rest ih =>
    intro _ hcl
    have hcc : ∀ p, scanClean p (' ' :: (c ++ [' '])) = true :=
      scanClean_pad c (hcl c (List.mem_cons_self c rest))
    cases rest with
    | nil =>
      have hsplit : (' ' :: pyJoin " | ".data [c]) ++ [' ', '|'] =
          (' ' :: (c ++ [' '])) ++ ['|'] := by
        simp [pyJoin]
      rw [hsplit, mdSplitAux_clean_append (' ' :: (c ++ [' '])) '|' [] ['|'] (hcc '|')]
      rw [getLastD_pad, mdSplitAux]
      simp [mdSplitAux]
    | cons c2 rest2 =>
      have hsplit : (' ' :: pyJoin " | ".data (c :: c2 :: rest2)) ++ [' ', '|'] =
          (' ' :: (c ++ [' '])) ++ ('|' :: ((' ' :: pyJoin " | ".data (c2 :: rest2)) ++ [' ', '|'])) := by
        show (' ' :: (c ++ " | ".data ++ pyJoin " | ".data (c2 :: rest2))) ++ [' ', '|'] = _
        simp
      rw [hsplit, mdSplitAux_clean_append (' ' :: (c ++ [' '])) '|' [] _ (hcc '|')]
      rw [getLastD_pad, mdSplitAux]
      have hrec := ih (by simp) (fun x hx p => hcl x (List.mem_cons_of_mem c hx) p)
      simp only [show (('|' == '|') && !(' ' == '\\')) = true by decide, if_true]
      rw [hrec]
      simp

/-- Splitting a rendered row whose cells all scan clean: one piece per
cell (space-padded), plus the empty leading and trailing pieces. -/
theorem mdSplit_rowLine (cells : List (List Char)) (h0 : cells ≠ [])
    (hcl : ∀ c ∈ cells, ∀ p, scanClean p (c ++ [' ']) = true) :
    mdSplit (rowLine cells) = [] :: (cells.map (fun c => ' ' :: (c ++ [' '])) ++ [[]]) := by
  have hshape : rowLine cells = '|' :: ((' ' :: pyJoin " | ".data cells) ++ [' ', '|']) := by
    show ['|', ' '] ++ pyJoin " | ".data cells ++ [' ', '|'] = _
    simp
  rw [mdSplit, hshape, mdSplitAux]
  simp only [show ((('|' : Char) == '|') && !((' ' : Char) == '\\')) = true by decide, if_true]
  rw [mdSplitAux_cells cells h0 hcl]
  rfl

/-! ### Per-index substitution (for order-independence) -/

/-- Substitute one segment: a span becomes the plain text `re.sub` puts
there (its replacement, or its original text when kept verbatim). -/
def procSeg (yp : YParse) (v : Vault) (fp : FsPath) (seg : Seg) : Seg :=
  .plain (applySeg yp v fp seg).1

/-- Substitute only the `i`-th segment of a document's segment list. -/
def applyIdx (yp : YParse) (v : Vault) (fp : FsPath) (segs : List Seg) (i : Nat) :
    List Seg :=
  segs.set i (procSeg yp v fp (segs.getD i (.plain [])))

theorem procSeg_idem (yp : YParse) (v : Vault) (fp : FsPath) (seg : Seg) :
    procSeg yp v fp (procSeg yp v fp seg) = procSeg yp v fp seg := by
  cases seg <;> rfl

theorem applyIdx_self (yp : YParse) (v : Vault) (fp : FsPath) (segs : List Seg) (i : Nat) :
    applyIdx yp v fp (applyIdx yp v fp segs i) i = applyIdx yp v fp segs i := by
  by_cases h : i < segs.length
  · unfold applyIdx
    have hg : ((segs.set i (procSeg yp v fp (segs.getD i (.plain [])))).getD i (.plain []))
        = procSeg yp v fp (segs.getD i (.plain [])) := by
      rw [List.getD_eq_getElem?_getD, List.getElem?_set_self h]
      rfl
    rw [hg, procSeg_idem, List.set_set]
  · push_neg at h
    have hs : ∀ x : Seg, segs.set i x = segs := fun _ => List.set_eq_of_length_le h
    simp [applyIdx, hs]

theorem applyIdx_comm (yp : YParse) (v : Vault) (fp : FsPath) (segs : List Seg) (i j : Nat) :
    applyIdx yp v fp (applyIdx yp v fp segs i) j = applyIdx yp v fp (applyIdx yp v fp segs j) i := by
  by_cases hij : i = j
  · subst hij; rfl
  · unfold applyIdx
    have hgj : ((segs.set i (procSeg yp v fp (segs.getD i (.plain [])))).getD j (.plain []))
        = segs.getD j (.plain []) := by
      rw [List.getD_eq_getElem?_getD, List.getElem?_set_ne hij, ← List.getD_eq_getElem?_getD]
    have hgi : ((segs.set j (procSeg yp v fp (segs.getD j (.plain [])))).getD i (.plain []))
        = segs.getD i (.plain []) := by
      rw [List.getD_eq_getElem?_getD, List.getElem?_set_ne (Ne.symm hij),
        ← List.getD_eq_getElem?_getD]
    rw [hgj, hgi, List.set_comm _ _ _ hij]

theorem foldApply_perm (yp : YParse) (v : Vault) (fp : FsPath) :
    ∀ {is1 is2 : List Nat}, is1.Perm is2 → ∀ segs : List Seg,
      is1.foldl (applyIdx yp v fp) segs = is2.foldl (applyIdx yp v fp) segs := by
  intro is1 is2 hp
  induction hp with
  | nil => intro segs; rfl
  | cons x _ ih => intro segs; simp only [List.foldl_cons]; exact ih _
  | swap x y l =>
    intro segs
    simp only [List.foldl_cons]
    rw [applyIdx_comm]
  | trans _ _ ih1 ih2 => intro segs; rw [ih1, ih2]

theorem foldApply_cons_shift (yp : YParse) (v : Vault) (fp : FsPath) :
    ∀ (is : List Nat) (x : Seg) (rest : List Seg),
      (is.map Nat.succ).foldl (applyIdx yp v fp) (x :: rest) =
        x :: is.foldl (applyIdx yp v fp) rest := by
  intro is
  induction is with
  | nil => intro x rest; rfl
  | cons i is ih =>
    intro x rest
    simp only [List.map_cons, List.foldl_cons]
    have hstep : applyIdx yp v fp (x :: rest) i.succ = x :: applyIdx yp v fp rest i := by
      unfold applyIdx
      rw [show i.succ = i + 1 from rfl, List.set_cons_succ, List.getD_cons_succ]
    rw [hstep, ih]

theorem foldApply_range (yp : YParse) (v : Vault) (fp : FsPath) :
    ∀ segs : List Seg,
      (List.range segs.length).foldl (applyIdx yp v fp) segs =
        segs.map (procSeg yp v fp) := by
  intro segs
  induction segs with
  | nil => rfl
  | cons s rest ih =>
    rw [List.length_cons, List.range_succ_eq_map, List.foldl_cons]
    have h0 : applyIdx yp v fp (s :: rest) 0 = procSeg yp v fp s :: rest := by
      unfold applyIdx
      rw [List.getD_cons_zero]
      rfl
    rw [h0, foldApply_cons_shift, ih]
    rfl

/-- The text of `re.sub` is the join of the per-segment substitutions. -/
theorem subText_eq_join_proc (yp : YParse) (v : Vault) (fp : FsPath) (t : List Char) :
    (subText yp v fp t).1 = segsJoin ((scanText t).map (procSeg yp v fp)) := by
  show ((scanText t).map (applySeg yp v fp)).foldr (fun a b => a.1 ++ b) [] = _
  rw [segsJoin, List.foldr_map, List.foldr_map]
  rfl

/-! ### File-write lemmas -/

theorem find_overwrite (p : FsPath) (c : List Char) :
    ∀ fs : List (FsPath × List Char), fs.any (fun e => e.1 == p) = true →
      (List.find? (fun e => e.1 == p) (fs.map fun e => if e.1 == p then (e.1, c) else e))
        = some (p, c) := by
  intro fs
  induction fs with
  | nil => intro h; simp at h
  | cons e es ih =>
    intro h
    by_cases he : (e.1 == p) = true
    · have hep : e.1 = p := by simpa using he
      simp [List.find?_cons_of_pos, he, hep]
    · have hes : es.any (fun e => e.1 == p) = true := by
        simp only [List.any_cons, he, Bool.false_or] at h
        exact h
      have hmap : (if (e.1 == p) = true then (e.1, c) else e) = e := by rw [if_neg]; simp [he]
      simp only [List.map_cons, hmap]
      rw [List.find?_cons_of_neg _ (by simp [he])]
      exact ih hes

theorem find_overwrite_ne (p q : FsPath) (c : List Char) (hne : ¬(q = p)) :
    ∀ fs : List (FsPath × List Char),
      (List.find? (fun e => e.1 == q) (fs.map fun e => if e.1 == p then (e.1, c) else e))
        = List.find? (fun e => e.1 == q) fs := by
  intro fs
  induction fs with
  | nil => rfl
  | cons e es ih =>
    by_cases he : (e.1 == p) = true
    · have hep : e.1 = p := by simpa using he
      have heq : (e.1 == q) = false := by
        rw [beq_eq_false_iff_ne, hep]
        exact fun hc => hne hc.symm
      simp only [List.map_cons, he, if_true]
      rw [@List.find?_cons_of_neg _ (fun x : FsPath × List Char => x.1 == q) (e.1, c) _
          (by simp [heq]),
        @List.find?_cons_of_neg _ (fun x : FsPath × List Char => x.1 == q) e _
          (by simp [heq]), ih]
    · by_cases heq : (e.1 == q) = true
      · simp only [List.map_cons, he, Bool.false_eq_true, if_false]
        rw [@List.find?_cons_of_pos _ (fun x : FsPath × List Char => x.1 == q) e _ heq,
          @List.find?_cons_of_pos _ (fun x : FsPath × List Char => x.1 == q) e _ heq]
      · simp only [List.map_cons, he, Bool.false_eq_true, if_false]
        rw [@List.find?_cons_of_neg _ (fun x : FsPath × List Char => x.1 == q) e _
            (by simp [heq]),
          @List.find?_cons_of_neg _ (fun x : FsPath × List Char => x.1 == q) e _
            (by simp [heq]), ih]

theorem contentOf_upsert_self (v : Vault) (p : FsPath) (c : List Char) :
    contentOf (upsert v p c) p = c := by
  unfold upsert
  by_cases h : v.files.any (fun e => e.1 == p) = true
  · rw [if_pos h]
    unfold contentOf
    simp only [find_overwrite p c v.files h, Option.map_some]
    rfl
  · rw [if_neg h]
    unfold contentOf
    have hall : v.files.find? (fun e => e.1 == p) = none := by
      rw [List.find?_eq_none]
      intro x hx hpx
      exact h (List.any_eq_true.mpr ⟨x, hx, hpx⟩)
    simp [List.find?_append, hall]

theorem contentOf_upsert_ne (v : Vault) (p q : FsPath) (c : List Char) (hne : ¬(q = p)) :
    contentOf (upsert v p c) q = contentOf v q := by
  unfold upsert
  by_cases h : v.files.any (fun e => e.1 == p) = true
  · rw [if_pos h]
    unfold contentOf
    simp only [find_overwrite_ne p q c hne v.files]
  · rw [if_neg h]
    unfold contentOf
    have hpq : (p == q) = false := by
      rw [beq_eq_false_iff_ne]
      exact fun hc => hne hc.symm
    have hlast : List.find? (fun e => e.1 == q) [(p, c)] = none := by
      rw [List.find?_cons_of_neg _ (by simp [hpq])]
      rfl
    simp [List.find?_append, hlast]

/-! ### Value-level YAML model

`yaml.safe_load` can return any YAML value, not only a mapping: a plain
scalar document yields an `int`/`str`/..., a sequence yields a `list`.
`_value_for_column` runs `col in fm`, `fm.get(col)` and `fm["title"]` on
that result without checking its type, so the Python runtime can raise
(`TypeError` for membership on a non-container, `AttributeError` for
`.get` on a non-dict), and line 80 returns the raw header value without
the `str()` that line 74 applies.  This section models those behaviors. -/

/-- A YAML value as `yaml.safe_load` can produce it (keys of mappings are
restricted to strings, which is all the source ever looks up). -/
inductive YVal where
  | ynull
  | ybool (b : Bool)
  | yint (n : Int)
  | ystr (s : List Char)
  | ylist (xs : List YVal)
  | ymap (entries : List (List Char × YVal))

/-- The Python runtime errors `_value_for_column` can hit. -/
inductive PyExc where
  | typeError
  | attributeError
  | keyError
deriving DecidableEq

/-- Python truthiness of a YAML value (for `data or {}`). -/
def yTruthy : YVal → Bool
  | .ynull => false
  | .ybool b => b
  | .yint n => !(n == 0)
  | .ystr s => !s.isEmpty
  | .ylist xs => !xs.isEmpty
  | .ymap m => !m.isEmpty

/-- Abstracted `yaml.safe_load` at full value fidelity (`none` models a
parse exception). -/
abbrev YParseY := List Char → Option YVal

/-- `_extract_frontmatter` at value fidelity: `data or {}` keeps a truthy
parse result of any type and collapses failures and falsy results to the
empty dict. -/
def extractFrontmatterY (ypY : YParseY) (t : List Char) : YVal :=
  if listStarts "---".data t then
    match findSub "---".data t with
    | none => .ymap []
    | some (_, rest1) =>
      match findSub "---".data rest1 with
      | none => .ymap []
      | some (mid, _) =>
        match ypY mid with
        | none => .ymap []
        | some v => if yTruthy v then v else .ymap []
  else .ymap []

/-- Python-dict lookup on a value-level mapping (later binding wins). -/
def yMapGet (m : List (List Char × YVal)) (k : List Char) : Option YVal :=
  (m.reverse.find? fun e => e.1 == k).map Prod.snd

/-- Python-dict membership on a value-level mapping. -/
def yMapHas (m : List (List Char × YVal)) (k : List Char) : Bool :=
  m.any fun e => e.1 == k

/-- Python `k in fm` on an arbitrary value: key membership for a dict,
substring test for a str, element equality for a list, and a `TypeError`
for non-container values (`argument of type 'int' is not iterable`). -/
def pyContainsY : YVal → List Char → Except PyExc Bool
  | .ymap m, k => .ok (yMapHas m k)
  | .ystr s, k => .ok (findSub k s).isSome
  | .ylist xs, k =>
    .ok (xs.any fun x => match x with | .ystr s => s == k | _ => false)
  | _, _ => .error .typeError

/-- Python `fm.get(col)`: only a dict has `.get`; anything else raises
`AttributeError`.  A missing key yields `None`. -/
def yGetAttr : YVal → List Char → Except PyExc YVal
  | .ymap m, k => .ok ((yMapGet m k).getD .ynull)
  | _, _ => .error .attributeError

/-- Python `fm["title"]`: dict subscription (a missing key raises
`KeyError`; the source only subscripts after a membership guard); string
or list subscription with a string index raises `TypeError`. -/
def ySubscript : YVal → List Char → Except PyExc YVal
  | .ymap m, k =>
    match yMapGet m k with
    | some v => .ok v
    | none => .error .keyError
  | _, _ => .error .typeError

/-- Python `str()` of a YAML value.  Scalars are rendered exactly; the
rendering of containers (always *some* string) is abstracted to a
placeholder, since no claim depends on its text. -/
def pyStrY : YVal → List Char
  | .ystr s => s
  | .yint n => (toString n).data
  | .ybool true => "True".data
  | .ybool false => "False".data
  | .ynull => "None".data
  | .ylist _ => "[...]".data
  | .ymap _ => Char.ofNat 123 :: "...".data ++ [Char.ofNat 125]

/-- Is the value a Python `str`? -/
def isStrY : YVal → Bool
  | .ystr _ => true
  | _ => false

/-- `_value_for_column` at value fidelity: the source's branches verbatim,
including the raising membership/`.get` operations and line 80's raw
(un-`str()`-ed) return of `fm["title"]`.  `.error` models an uncaught
exception propagating out of the function. -/
def valueForColumnY (ypY : YParseY) (mdText col0 : List Char) (fp : FsPath) :
    Except PyExc YVal :=
  let col := pyStrip col0
  if isPseudoName col then .ok (.ystr (stemOf (fp.getLastD [])))
  else if isPseudoPath col then .ok (.ystr (relPath fp))
  else
    let fm := extractFrontmatterY ypY mdText
    let inline := extractInlineKV mdText
    match pyContainsY fm col with
    | .error e => .error e
    | .ok true =>
      match yGetAttr fm col with
      | .error e => .error e
      | .ok v => .ok (.ystr (pyStrY v))
    | .ok false =>
      if pyHas inline col then .ok (.ystr ((pyGet inline col).getD []))
      else if isTitleName col then
        match pyContainsY fm "title".data with
        | .error e => .error e
        | .ok true => ySubscript fm "title".data
        | .ok false => .ok (.ystr (stemOf (fp.getLastD [])))
      else .ok (.ystr [])

/-- Embed a string-valued mapping into the value level. -/
def strMapY (m : List (List Char × List Char)) : YVal :=
  .ymap (m.map fun e => (e.1, .ystr e.2))

/-- Lift a string-map parser to the value level. -/
def liftYP (yp : YParse) : YParseY := fun s => (yp s).map strMapY

theorem yMapHas_strMap (m : List (List Char × List Char)) (k : List Char) :
    yMapHas (m.map fun e => (e.1, YVal.ystr e.2)) k = pyHas m k := by
  induction m with
  | nil => rfl
  | cons e es ih => simp [yMapHas, pyHas] at ih ⊢; rw [ih]

theorem yMapGet_strMap (m : List (List Char × List Char)) (k : List Char) :
    yMapGet (m.map fun e => (e.1, YVal.ystr e.2)) k = (pyGet m k).map .ystr := by
  unfold yMapGet pyGet
  rw [← List.map_reverse]
  induction m.reverse with
  | nil => rfl
  | cons e es ih =>
    by_cases he : (e.1 == k) = true
    · simp only [List.map_cons]
      rw [@List.find?_cons_of_pos _ (fun x : List Char × YVal => x.1 == k)
            (e.1, YVal.ystr e.2) _ (by simpa using he),
        @List.find?_cons_of_pos _ (fun x : List Char × List Char => x.1 == k) e _ he]
      rfl
    · simp only [List.map_cons]
      rw [@List.find?_cons_of_neg _ (fun x : List Char × YVal => x.1 == k)
            (e.1, YVal.ystr e.2) _ (by simpa using he),
        @List.find?_cons_of_neg _ (fun x : List Char × List Char => x.1 == k) e _
            (by simpa using he)]
      exact ih

theorem extractFrontmatterY_lift (yp : YParse) (t : List Char) :
    extractFrontmatterY (liftYP yp) t = strMapY (extractFrontmatter yp t) := by
  unfold extractFrontmatterY extractFrontmatter liftYP
  by_cases h : listStarts "---".data t = true
  · rw [if_pos h, if_pos h]
    cases h1 : findSub "---".data t with
    | none => rfl
    | some pr =>
      obtain ⟨pre, rest1⟩ := pr
      dsimp only
      cases h2 : findSub "---".data rest1 with
      | none => rfl
      | some pr2 =>
        obtain ⟨mid, rest⟩ := pr2
        show (match (yp mid).map strMapY with
            | none => YVal.ymap []
            | some v => if yTruthy v = true then v else YVal.ymap []) =
          strMapY ((yp mid).getD [])
        cases h3 : yp mid with
        | none => rfl
        | some m =>
          cases m with
          | nil => rfl
          | cons e es => rfl
  · rw [if_neg h, if_neg h]
    rfl

/-- `pyHas` found a key, so `pyGet` returns a value. -/
theorem pyGet_isSome_of_pyHas (m : List (List Char × List Char)) (k : List Char)
    (h : pyHas m k = true) : ∃ v, pyGet m k = some v := by
  unfold pyHas at h
  unfold pyGet
  rcases List.any_eq_true.mp h with ⟨e, hin, hbeq⟩
  have hrev : e ∈ m.reverse := List.mem_reverse.mpr hin
  cases hf : List.find? (fun e => e.1 == k) m.reverse with
  | none =>
    rw [List.find?_eq_none] at hf
    exact absurd hbeq (hf e hrev)
  | some ev => exact ⟨ev.2, rfl⟩

/-- The string-map resolver is the restriction of the value-level
resolver: on frontmatter that parses to a string-valued mapping (or to
nothing), `_value_for_column` never raises and yields exactly the string
the string-map model computes. -/
theorem valueForColumnY_lift (yp : YParse) (t col : List Char) (fp : FsPath) :
    valueForColumnY (liftYP yp) t col fp = .ok (.ystr (valueForColumn yp t col fp)) := by
  unfold valueForColumnY valueForColumn
  by_cases h1 : isPseudoName (pyStrip col) = true
  · simp [h1]
  · by_cases h2 : isPseudoPath (pyStrip col) = true
    · simp [h1, h2]
    · simp only [h1, h2, Bool.false_eq_true, if_false]
      rw [extractFrontmatterY_lift]
      have hc : pyContainsY (strMapY (extractFrontmatter yp t)) (pyStrip col) =
          .ok (pyHas (extractFrontmatter yp t) (pyStrip col)) := by
        unfold strMapY pyContainsY
        dsimp only
        rw [yMapHas_strMap]
      rw [hc]
      by_cases hhas : pyHas (extractFrontmatter yp t) (pyStrip col) = true
      · rw [hhas]
        obtain ⟨v, hv⟩ := pyGet_isSome_of_pyHas _ _ hhas
        have hget : yGetAttr (strMapY (extractFrontmatter yp t)) (pyStrip col) =
            .ok (.ystr v) := by
          unfold strMapY yGetAttr
          dsimp only
          rw [yMapGet_strMap, hv]
          rfl
        rw [hget]
        simp [pyStrY, hv]
      · rw [Bool.not_eq_true] at hhas
        rw [hhas]
        by_cases hin : pyHas (extractInlineKV t) (pyStrip col) = true
        · simp [hin]
        · rw [Bool.not_eq_true] at hin
          simp only [hin, Bool.false_eq_true, if_false]
          by_cases htn : isTitleName (pyStrip col) = true
          · simp only [htn, if_true]
            have hct : pyContainsY (strMapY (extractFrontmatter yp t)) "title".data =
                .ok (pyHas (extractFrontmatter yp t) "title".data) := by
              unfold strMapY pyContainsY
              dsimp only
              rw [yMapHas_strMap]
            rw [hct]
            by_cases hti : pyHas (extractFrontmatter yp t) "title".data = true
            · rw [hti]
              obtain ⟨v, hv⟩ := pyGet_isSome_of_pyHas _ _ hti
              have hsub : ySubscript (strMapY (extractFrontmatter yp t)) "title".data =
                  .ok (.ystr v) := by
                unfold strMapY ySubscript
                dsimp only
                rw [yMapGet_strMap, hv]
                rfl
              rw [hsub]
              simp [hv]
            · rw [Bool.not_eq_true] at hti
              rw [hti]
              simp [hti]
          · simp [htn]

/-! ### Claims -/

/-- Spec-side resolution (for the C3 refinement): written following the
spec's precedence wording — (1) `file.name`/`file` pseudo-field, (2)
`file.path`/`path` pseudo-field, (3) header map by exact key, (4) inline
map by exact key, (5) case-insensitive `title`/`name` with header `title`
fallback to the stem, (6) empty string. -/
def specResolve (fm inline : List (List Char × List Char)) (stem relp : List Char)
    (col : List Char) : List Char :=
  if isPseudoName col then stem
  else if isPseudoPath col then relp
  else if pyHas fm col then (pyGet fm col).getD []
  else if pyHas inline col then (pyGet inline col).getD []
  else if isTitleName col then
    if pyHas fm "title".data then (pyGet fm "title".data).getD [] else stem
  else []

/-- C3: column resolution follows the fixed first-match-wins precedence the
spec states: pseudo-fields `file.name`/`file` then `file.path`/`path`, then
the header map by exact key, then the inline map by exact key, then
case-insensitive `title`/`name` (header `title` if present, else the file
stem), and the empty string as fallback.  The hypothesis that the column
name is already whitespace-trimmed reflects the only caller (the parser
trims every column before resolution); the source re-trims internally. -/
theorem claim_C3_precedence (yp : YParse) (t col : List Char) (fp : FsPath)
    (htrim : pyStrip col = col) :
    valueForColumn yp t col fp =
      specResolve (extractFrontmatter yp t) (extractInlineKV t)
        (stemOf (fp.getLastD [])) (relPath fp) col := by
  unfold valueForColumn specResolve
  rw [htrim]

/-- Witness for C3 at a concrete input: an inline-annotated column resolves
through the precedence to its inline value. -/
theorem claim_C3_witness :
    valueForColumn (fun _ => none) "Status:: done".data "Status".data ["n.md".data] =
      specResolve (extractFrontmatter (fun _ => none) "Status:: done".data)
        (extractInlineKV "Status:: done".data) (stemOf "n.md".data)
        (relPath ["n.md".data]) "Status".data :=
  claim_C3_precedence (fun _ => none) "Status:: done".data "Status".data ["n.md".data]
    (by decide)

/-- `yaml.safe_load` on the three frontmatter bodies of the C4 failing
inputs, per the YAML core schema: a bare `42` is an int, a bare word is a
str, and `title: 2024` is a mapping with an int value. -/
def ypBug : YParseY := fun s =>
  if s == "\n42\n".data then some (.yint 42)
  else if s == "\ntags\n".data then some (.ystr "tags".data)
  else if s == "\ntitle: 2024\n".data then some (.ymap [("title".data, .yint 2024)])
  else none

/-- C4: the claim (resolution always returns a string, never raises, a
present entry resolves to a string) is the spec's stated intent, but the
code violates it.  Evaluating `_value_for_column` at value fidelity:
frontmatter `---\n42\n---` makes `col in fm` raise `TypeError` (an int is
not iterable); frontmatter `---\ntags\n---` makes `"tag" in fm` succeed as
a *substring* test and then `fm.get` raise `AttributeError`; and
frontmatter `---\ntitle: 2024\n---` with column `name` returns the raw
int `2024` through line 80's un-`str()`-ed `fm["title"]` — a non-string,
on which the caller's `val.replace` then raises. -/
theorem claim_C4_resolution_raises :
    valueForColumnY ypBug "---\n42\n---\n".data "K".data ["n.md".data] =
      .error .typeError ∧
    valueForColumnY ypBug "---\ntags\n---\n".data "tag".data ["n.md".data] =
      .error .attributeError ∧
    valueForColumnY ypBug "---\ntitle: 2024\n---\n".data "name".data ["n.md".data] =
      .ok (.yint 2024) ∧
    isStrY (.yint 2024) = false :=
  ⟨rfl, rfl, rfl, rfl⟩

/-- Fixture for the C5 counterexample: a vault whose root holds two `.md`
files, one of which (`sub.md`) is named by the `FROM` argument. -/
def v5 : Vault :=
  ⟨[(["sub.md".data], "x".data), (["a.md".data], "y".data)], [[]]⟩

/-- C5 counterexample: the claim says a `FROM` path that does not exist OR
is not a directory falls back to scanning the whole root.  For
`FROM "sub.md"`, where `sub.md` exists but is a file, the source takes the
`candidate.exists()` branch and scans from the file itself: `rglob` on a
non-directory yields nothing, so the scan returns zero files instead of the
whole-root scan. -/
theorem claim_C5_counterexample :
    pexists v5 (pathSegs (stripQuotes (pyStrip "sub.md".data))) = true ∧
    isDir v5 (pathSegs (stripQuotes (pyStrip "sub.md".data))) = false ∧
    gatherFiles v5 (some "sub.md".data) = [] ∧
    gatherFiles v5 none = [["sub.md".data], ["a.md".data]] := by
  decide

theorem gatherBase_none (v : Vault) : gatherBase v none = [] := rfl

theorem gatherBase_some (v : Vault) (s : List Char) :
    gatherBase v (some s) =
      if s.isEmpty then []
      else
        if (pexists v (pathSegs (stripQuotes (pyStrip s)))
            && isDir v (pathSegs (stripQuotes (pyStrip s)))) = true then
          pathSegs (stripQuotes (pyStrip s))
        else if pexists v (pathSegs (stripQuotes (pyStrip s))) = true then
          pathSegs (stripQuotes (pyStrip s))
        else [] := rfl

/-- C5 (amended): gathering never raises for a bad subtree argument (it is
a total function), and the silent whole-root fallback happens exactly when
the computed path does not exist; when the path exists but is not a
directory, the scan is rooted at that non-directory path and yields no
files at all (in any well-formed vault, where no file path is a prefix of
another file path).  The `head?` hypothesis scopes the model to relative
`FROM` arguments (pathlib would treat a leading `/` as absolute). -/
theorem claim_C5_fallback_amended (v : Vault) (s : List Char)
    (hs : s.isEmpty = false)
    (habs : ¬((stripQuotes (pyStrip s)).head? = some '/'))
    (hwf : ∀ p ∈ v.files.map Prod.fst, ∀ q ∈ v.files.map Prod.fst,
      segStarts p q = true → p = q) :
    (pexists v (pathSegs (stripQuotes (pyStrip s))) = false →
      gatherFiles v (some s) = gatherFiles v none) ∧
    (pexists v (pathSegs (stripQuotes (pyStrip s))) = true →
     isDir v (pathSegs (stripQuotes (pyStrip s))) = false →
      gatherFiles v (some s) = []) := by
  constructor
  · intro hex
    unfold gatherFiles
    rw [gatherBase_some, gatherBase_none, hs]
    simp only [Bool.false_eq_true, if_false, hex, Bool.false_and]
  · intro hex hdir
    unfold gatherFiles
    rw [gatherBase_some, hs]
    simp only [Bool.false_eq_true, if_false, hex, hdir, Bool.and_false, if_true]
    set target := pathSegs (stripQuotes (pyStrip s)) with htarget
    have htf : target ∈ v.files.map Prod.fst := by
      have : v.files.any (fun e => e.1 == target) = true := by
        unfold pexists at hex
        unfold isDir at hdir
        rcases Bool.or_eq_true .. ▸ hex with hd | hf
        · exact absurd hd (by simp [hdir])
        · exact hf
      rcases List.any_eq_true.mp this with ⟨e, hein, hbeq⟩
      have : e.1 = target := by simpa using hbeq
      exact this ▸ List.mem_map_of_mem Prod.fst hein
    unfold mdFilesUnder
    rw [List.filter_eq_nil_iff]
    intro p hp hcond
    obtain ⟨hcond1, _⟩ := Bool.and_eq_true .. ▸ hcond
    obtain ⟨hpre, hne⟩ := Bool.and_eq_true .. ▸ hcond1
    have : target = p := hwf target htf p hp hpre
    simp [this] at hne

/-- Witness for C5 (amended) at a concrete input: a nonexistent subtree
falls back to the whole-root scan. -/
theorem claim_C5_witness :
    gatherFiles v5 (some "missing".data) = gatherFiles v5 none :=
  (claim_C5_fallback_amended v5 "missing".data (by decide) (by decide)
    (by decide)).1 (by decide)

/-- C6: a recognized `TABLE` block whose parsed column list is empty is
returned verbatim (the span's original text survives unchanged), it does
not mark the document as changed, and it logs nothing (the guard returns
before the conversion log line). -/
theorem claim_C6_no_columns_verbatim (yp : YParse) (v : Vault) (fp : FsPath)
    (orig inner l0 : List Char) (ls : List (List Char))
    (hl : pySplitlines (pyStrip inner) = l0 :: ls)
    (ht : upStarts "TABLE".data (pyStrip l0) = true)
    (hc : tableColsOf (pyStrip l0) = []) :
    applySeg yp v fp (.block orig inner) = (orig, false, []) := by
  simp only [applySeg, processInner]
  rw [hl]
  simp [ht, hc]

/-- Witness for C6 at a concrete input: `TABLE FROM "."` parses to zero
columns and the span is kept byte-identical with no change flag. -/
theorem claim_C6_witness :
    applySeg (fun _ => none) v5 ["a.md".data]
      (.block "```dataview\nTABLE FROM \".\"\n```".data "\nTABLE FROM \".\"\n".data) =
      ("```dataview\nTABLE FROM \".\"\n```".data, false, []) :=
  claim_C6_no_columns_verbatim (fun _ => none) v5 ["a.md".data]
    "```dataview\nTABLE FROM \".\"\n```".data "\nTABLE FROM \".\"\n".data
    "TABLE FROM \".\"".data [] (by decide) (by decide) (by decide)

/-- C7: a block whose first non-empty line starts with neither `TABLE` nor
`LIST` (case-insensitively) is passed through byte-identically, does not
mark the document as changed, and emits exactly the skipped-block
diagnostic log line. -/
theorem claim_C7_unsupported_verbatim (yp : YParse) (v : Vault) (fp : FsPath)
    (orig inner l0 : List Char) (ls : List (List Char))
    (hl : pySplitlines (pyStrip inner) = l0 :: ls)
    (ht : upStarts "TABLE".data (pyStrip l0) = false)
    (hli : upStarts "LIST".data (pyStrip l0) = false) :
    applySeg yp v fp (.block orig inner) = (orig, false, [.skippedComplex fp]) := by
  simp only [applySeg, processInner]
  rw [hl]
  simp [ht, hli]

/-- Witness for C7 at a concrete input: a `dataviewjs`-style block is left
verbatim with the diagnostic logged. -/
theorem claim_C7_witness :
    applySeg (fun _ => none) v5 ["a.md".data]
      (.block "```dataviewjs\nlet x = 1\n```".data "js\nlet x = 1\n".data) =
      ("```dataviewjs\nlet x = 1\n```".data, false,
        [.skippedComplex ["a.md".data]]) :=
  claim_C7_unsupported_verbatim (fun _ => none) v5 ["a.md".data]
    "```dataviewjs\nlet x = 1\n```".data "js\nlet x = 1\n".data
    "js".data ["let x = 1".data] (by decide) (by decide) (by decide)

/-- C2: for a `TABLE` block with a non-empty parsed column list of `N`
names (none containing a literal pipe, which the source never escapes in
headers), the replacement is the rendered table whose header row splits at
unescaped pipes into exactly the `N` names in requested order, whose
separator row is `N` cells of `---`, and which has one data row per
scanned document; every data row has exactly `N` cells (`N + 2` pieces
including the empty leading/trailing ones) because every pipe inside a
resolved value is rendered as `\|`, immediately preceded by a backslash. -/
theorem claim_C2_table_aligned (yp : YParse) (v : Vault) (fp : FsPath)
    (inner l0 : List Char) (ls : List (List Char))
    (hl : pySplitlines (pyStrip inner) = l0 :: ls)
    (ht : upStarts "TABLE".data (pyStrip l0) = true)
    (hc : ¬(tableColsOf (pyStrip l0) = []))
    (hp : ∀ c ∈ tableColsOf (pyStrip l0), ¬('|' ∈ c)) :
    processInner yp v fp inner =
      (some (renderTable (tableColsOf (pyStrip l0))
        ((gatherFiles v (fromArgOf (pyStrip l0))).map
          (rowFor yp v (tableColsOf (pyStrip l0))))),
        [.convertedTable (fromArgOf (pyStrip l0)) fp]) ∧
    mdSplit (rowLine (tableColsOf (pyStrip l0))) =
      [] :: ((tableColsOf (pyStrip l0)).map (fun c => ' ' :: (c ++ [' '])) ++ [[]]) ∧
    mdSplit (rowLine (List.replicate (tableColsOf (pyStrip l0)).length "---".data)) =
      [] :: (List.replicate (tableColsOf (pyStrip l0)).length
        (' ' :: ("---".data ++ [' '])) ++ [[]]) ∧
    ((gatherFiles v (fromArgOf (pyStrip l0))).map
      (rowFor yp v (tableColsOf (pyStrip l0)))).length =
      (gatherFiles v (fromArgOf (pyStrip l0))).length ∧
    (∀ f ∈ gatherFiles v (fromArgOf (pyStrip l0)),
      (rowFor yp v (tableColsOf (pyStrip l0)) f).length =
        (tableColsOf (pyStrip l0)).length ∧
      (mdSplit (rowLine (rowFor yp v (tableColsOf (pyStrip l0)) f))).length =
        (tableColsOf (pyStrip l0)).length + 2 ∧
      ∀ cell ∈ rowFor yp v (tableColsOf (pyStrip l0)) f, pipesEscaped cell = true) := by
  refine ⟨?_, ?_, ?_, ?_, ?_⟩
  · simp only [processInner]
    rw [hl]
    have hce : (tableColsOf (pyStrip l0)).isEmpty = false := by
      cases hx : tableColsOf (pyStrip l0) with
      | nil => exact absurd hx hc
      | cons a as => rfl
    simp [ht, hce]
  · exact mdSplit_rowLine (tableColsOf (pyStrip l0)) hc
      (fun c hcin p => scanClean_nopipe c (hp c hcin) p)
  · have hn : ¬(List.replicate (tableColsOf (pyStrip l0)).length "---".data
        = ([] : List (List Char))) := by
      cases hx : tableColsOf (pyStrip l0) with
      | nil => exact absurd hx hc
      | cons a as => simp [hx]
    have hclean : ∀ c ∈ List.replicate (tableColsOf (pyStrip l0)).length "---".data,
        ∀ p, scanClean p (c ++ [' ']) = true := by
      intro c hcin p
      have : c = "---".data := List.eq_of_mem_replicate hcin
      subst this
      exact scanClean_nopipe "---".data (by decide) p
    rw [mdSplit_rowLine _ hn hclean]
    simp [List.map_replicate]
  · exact List.length_map _ _
  · intro f hf
    refine ⟨List.length_map _ _, ?_, ?_⟩
    · have hrne : ¬(rowFor yp v (tableColsOf (pyStrip l0)) f = []) := by
        unfold rowFor
        cases hx : tableColsOf (pyStrip l0) with
        | nil => exact absurd hx hc
        | cons a as => simp [hx]
      have hclean : ∀ c ∈ rowFor yp v (tableColsOf (pyStrip l0)) f,
          ∀ p, scanClean p (c ++ [' ']) = true := by
        intro c hcin p
        unfold rowFor at hcin
        rcases List.mem_map.mp hcin with ⟨col, _, hceq⟩
        rw [← hceq]
        exact scanClean_escape _ p
      rw [mdSplit_rowLine _ hrne hclean]
      simp [rowFor]
    · intro cell hcin
      unfold rowFor at hcin
      rcases List.mem_map.mp hcin with ⟨col, _, hceq⟩
      rw [← hceq]
      exact pipesEscaped_escape _

/-- Fixture for the C2 witness: one file whose inline `T` value contains a
literal pipe. -/
def v2w : Vault := ⟨[(["n.md".data], "T:: a|b\n".data)], [[]]⟩

/-- Witness for C2 at a concrete input: one column `T`, one scanned file
whose `T` value contains a literal pipe (`a|b`); the data row still splits
into exactly three pieces (one cell). -/
theorem claim_C2_witness :
    (mdSplit (rowLine (tableColsOf (pyStrip "TABLE T".data))) =
      [] :: ((tableColsOf (pyStrip "TABLE T".data)).map
        (fun c => ' ' :: (c ++ [' '])) ++ [[]])) ∧
    ∀ f ∈ gatherFiles v2w (fromArgOf (pyStrip "TABLE T".data)),
      (mdSplit (rowLine (rowFor (fun _ => none) v2w
          (tableColsOf (pyStrip "TABLE T".data)) f))).length =
        (tableColsOf (pyStrip "TABLE T".data)).length + 2 := by
  have h := claim_C2_table_aligned (fun _ => none) v2w ["n.md".data]
    "\nTABLE T\n".data "TABLE T".data [] (by decide) (by decide) (by decide)
    (by decide)
  exact ⟨h.2.1, fun f hf => (h.2.2.2.2 f hf).2.1⟩

/-- C10: the scan never excludes the document containing the block.  When
the scan base computed for a block's `FROM` argument is a proper ancestor
of an `.md` document `fpD` of the vault, `fpD` is in the gathered file
set, so the row the `TABLE` path builds for it (`rowFor`, from
`contentOf v fpD` — the pre-substitution on-disk content, since the
document is written back only after substitution) and the item the `LIST`
path builds for it (`itemFor`) appear in the rendered rows / items. -/
theorem claim_C10_scan_includes_self (yp : YParse) (v : Vault) (fpD : FsPath)
    (a : Option (List Char))
    (hmem : fpD ∈ v.files.map Prod.fst)
    (hmd : endsMd fpD = true)
    (hanc : segStarts (gatherBase v a) fpD = true)
    (hne : ¬(fpD = gatherBase v a)) :
    fpD ∈ gatherFiles v a ∧
    (∀ cols : List (List Char),
      rowFor yp v cols fpD ∈ (gatherFiles v a).map (rowFor yp v cols)) ∧
    itemFor yp v fpD ∈ (gatherFiles v a).map (itemFor yp v) := by
  have hin : fpD ∈ gatherFiles v a := by
    unfold gatherFiles mdFilesUnder
    refine List.mem_filter.mpr ⟨hmem, ?_⟩
    have hne2 : (fpD == gatherBase v a) = false := by
      rw [beq_eq_false_iff_ne]
      exact hne
    simp [hanc, hne2, hmd]
  exact ⟨hin, fun cols => List.mem_map_of_mem (rowFor yp v cols) hin,
    List.mem_map_of_mem (itemFor yp v) hin⟩

/-- Witness for C10 at a concrete input: the document carrying the block is
itself among the gathered files and contributes a row. -/
theorem claim_C10_witness :
    ["n.md".data] ∈ gatherFiles v2w (fromArgOf (pyStrip "TABLE T".data)) ∧
    rowFor (fun _ => none) v2w (tableColsOf (pyStrip "TABLE T".data)) ["n.md".data] ∈
      (gatherFiles v2w (fromArgOf (pyStrip "TABLE T".data))).map
        (rowFor (fun _ => none) v2w (tableColsOf (pyStrip "TABLE T".data))) := by
  have h := claim_C10_scan_includes_self (fun _ => none) v2w ["n.md".data]
    (fromArgOf (pyStrip "TABLE T".data)) (by decide) (by decide) (by decide)
    (by decide)
  exact ⟨h.1, h.2.1 (tableColsOf (pyStrip "TABLE T".data))⟩

/-- C8: blocks are independent, so substituting a document's spans in any
order yields the same final text: the per-index substitution `applyIdx`
applied along any two permutations of any index list gives the same
segment list, and applying it across all indices in order reproduces
exactly the text `re.sub` produces in its single pass (each span's
replacement depends only on that span's inner text and the file-system
state, never on another span). -/
theorem claim_C8_order_independent (yp : YParse) (v : Vault) (fp : FsPath)
    (t : List Char) :
    (∀ is1 is2 : List Nat, is1.Perm is2 →
      is1.foldl (applyIdx yp v fp) (scanText t) =
        is2.foldl (applyIdx yp v fp) (scanText t)) ∧
    segsJoin ((List.range (scanText t).length).foldl (applyIdx yp v fp) (scanText t)) =
      (subText yp v fp t).1 := by
  constructor
  · intro is1 is2 hperm
    exact foldApply_perm yp v fp hperm (scanText t)
  · rw [foldApply_range, ← subText_eq_join_proc]

/-- Witness for C8 at a concrete input: a two-block document processed as
`[0, 1]` and as `[1, 0]` gives identical segment lists. -/
theorem claim_C8_witness :
    [0, 1].foldl (applyIdx (fun _ => none) v2w ["n.md".data])
        (scanText "x ```dataview\njs a\n``` y ```dataview\njs b\n``` z".data) =
      [1, 0].foldl (applyIdx (fun _ => none) v2w ["n.md".data])
        (scanText "x ```dataview\njs a\n``` y ```dataview\njs b\n``` z".data) :=
  (claim_C8_order_independent (fun _ => none) v2w ["n.md".data]
    "x ```dataview\njs a\n``` y ```dataview\njs b\n``` z".data).1
    [0, 1] [1, 0] (by decide)

/-- The log events a block itself can emit (conversion or skip lines, as
opposed to the backup / file-update lines of the per-file loop). -/
def isBlockEvent : LogEvent → Bool
  | .convertedTable _ _ => true
  | .convertedList _ _ => true
  | .skippedComplex _ => true
  | _ => false

theorem processInner_logs (yp : YParse) (v : Vault) (fp : FsPath) (inner : List Char) :
    ∀ e ∈ (processInner yp v fp inner).2, isBlockEvent e = true := by
  intro e he
  simp only [processInner] at he
  rcases hsp : pySplitlines (pyStrip inner) with _ | ⟨l0, ls⟩
  · rw [hsp] at he
    simp at he
  · rw [hsp] at he
    by_cases ht : upStarts "TABLE".data (pyStrip l0) = true
    · simp only [ht, if_true] at he
      by_cases hce : (tableColsOf (pyStrip l0)).isEmpty = true
      · simp [hce] at he
      · rw [Bool.not_eq_true] at hce
        simp only [hce, Bool.false_eq_true, if_false, List.mem_singleton] at he
        rw [he]
        rfl
    · simp only [ht, Bool.false_eq_true, if_false] at he
      by_cases hli : upStarts "LIST".data (pyStrip l0) = true
      · simp only [hli, if_true, List.mem_singleton] at he
        rw [he]
        rfl
      · simp only [hli, Bool.false_eq_true, if_false, List.mem_singleton] at he
        rw [he]
        rfl

theorem any_map_comp {α β : Type} (f : α → β) (p : β → Bool) :
    ∀ l : List α, (l.map f).any p = l.any fun x => p (f x) := by
  intro l
  induction l with
  | nil => rfl
  | cons x xs ih => simp [ih]

theorem segs_logs (yp : YParse) (v : Vault) (fp : FsPath) :
    ∀ l : List Seg,
      ∀ e ∈ (l.map (applySeg yp v fp)).foldr (fun a b => a.2.2 ++ b) [],
        isBlockEvent e = true := by
  intro l
  induction l with
  | nil => intro e he; simp at he
  | cons s rest ih =>
    intro e he
    simp only [List.map_cons, List.foldr_cons] at he
    rcases List.mem_append.mp he with h1 | h2
    · cases s with
      | plain s2 => simp [applySeg] at h1
      | block o i =>
        have hl : (applySeg yp v fp (.block o i)).2.2 = (processInner yp v fp i).2 := by
          unfold applySeg
          cases hpr : processInner yp v fp i with
          | mk oo lg => cases oo <;> simp [hpr]
        rw [hl] at h1
        exact processInner_logs yp v fp i e h1
    · exact ih e h2

theorem subText_logs (yp : YParse) (v : Vault) (fp : FsPath) (t : List Char) :
    ∀ e ∈ (subText yp v fp t).2.2, isBlockEvent e = true :=
  fun e he => segs_logs yp v fp (scanText t) e he

theorem bakPath_ne (fp : FsPath) : ¬(bakPath fp = fp) := by
  intro h
  have h2 : (bakPath fp).getLastD [] = fp.getLastD [] := by rw [h]
  unfold bakPath at h2
  rw [List.getLastD_concat] at h2
  have h3 := congrArg List.length h2
  simp at h3

theorem convertStep_changed (yp : YParse) (b : Bool) (v : Vault) (fp : FsPath)
    (h : (subText yp v fp (contentOf v fp)).2.1 = true) :
    convertStep yp b v fp =
      (upsert (if b then upsert v (bakPath fp) (contentOf v fp) else v) fp
        (subText yp v fp (contentOf v fp)).1,
       (subText yp v fp (contentOf v fp)).2.2 ++
         (if b then [.backedUp (bakPath fp)] else []) ++ [.updated fp],
       true) := by
  simp only [convertStep, h, if_true]

theorem convertStep_unchanged (yp : YParse) (b : Bool) (v : Vault) (fp : FsPath)
    (h : (subText yp v fp (contentOf v fp)).2.1 = false) :
    convertStep yp b v fp = (v, (subText yp v fp (contentOf v fp)).2.2, false) := by
  simp only [convertStep, h, Bool.false_eq_true, if_false]

/-- C9: in the per-document loop body, the changed flag is true exactly
when some span of the document was substituted; the file-update log event
(the overwrite) occurs iff the flag is set; an unchanged document leaves
the file system untouched and gets no backup; a changed document's file
holds the substituted text, its backup (when enabled) holds the original
bytes, and the backup event occurs iff backups are enabled; and no other
path's content is affected. -/
theorem claim_C9_write_iff_changed (yp : YParse) (b : Bool) (v : Vault) (fp : FsPath) :
    ((convertStep yp b v fp).2.2 =
      (scanText (contentOf v fp)).any (fun seg => (applySeg yp v fp seg).2.1)) ∧
    (LogEvent.updated fp ∈ (convertStep yp b v fp).2.1 ↔
      (convertStep yp b v fp).2.2 = true) ∧
    ((convertStep yp b v fp).2.2 = false →
      (convertStep yp b v fp).1 = v ∧
      ∀ p, ¬(LogEvent.backedUp p ∈ (convertStep yp b v fp).2.1)) ∧
    ((convertStep yp b v fp).2.2 = true →
      contentOf (convertStep yp b v fp).1 fp = (subText yp v fp (contentOf v fp)).1 ∧
      (b = true → contentOf (convertStep yp b v fp).1 (bakPath fp) = contentOf v fp) ∧
      (LogEvent.backedUp (bakPath fp) ∈ (convertStep yp b v fp).2.1 ↔ b = true)) ∧
    (∀ q, ¬(q = fp) → ¬(q = bakPath fp) →
      contentOf (convertStep yp b v fp).1 q = contentOf v q) := by
  have hflag : (subText yp v fp (contentOf v fp)).2.1 =
      (scanText (contentOf v fp)).any (fun seg => (applySeg yp v fp seg).2.1) := by
    show ((scanText (contentOf v fp)).map (applySeg yp v fp)).any (fun a => a.2.1) = _
    rw [any_map_comp]
  cases hch : (subText yp v fp (contentOf v fp)).2.1 with
  | false =>
    have hstep := convertStep_unchanged yp b v fp hch
    refine ⟨?_, ?_, ?_, ?_, ?_⟩
    · rw [hstep, ← hflag, hch]
    · rw [hstep]
      constructor
      · intro hmem
        have := subText_logs yp v fp (contentOf v fp) _ hmem
        simp [isBlockEvent] at this
      · intro hfa
        exact absurd hfa (by simp)
    · intro _
      rw [hstep]
      refine ⟨rfl, fun p hmem => ?_⟩
      have := subText_logs yp v fp (contentOf v fp) _ hmem
      simp [isBlockEvent] at this
    · intro hco
      rw [hstep] at hco
      simp at hco
    · intro q _ _
      rw [hstep]
  | true =>
    have hstep := convertStep_changed yp b v fp hch
    refine ⟨?_, ?_, ?_, ?_, ?_⟩
    · rw [hstep, ← hflag, hch]
    · rw [hstep]
      constructor
      · intro _; rfl
      · intro _
        simp
    · intro hco
      rw [hstep] at hco
      simp at hco
    · intro _
      rw [hstep]
      refine ⟨contentOf_upsert_self _ fp _, ?_, ?_⟩
      · intro hb
        rw [contentOf_upsert_ne _ fp (bakPath fp) _ (bakPath_ne fp), hb, if_pos rfl]
        exact contentOf_upsert_self v (bakPath fp) (contentOf v fp)
      · constructor
        · intro hmem
          rcases List.mem_append.mp hmem with h1 | h2
          · rcases List.mem_append.mp h1 with h3 | h4
            · have := subText_logs yp v fp (contentOf v fp) _ h3
              simp [isBlockEvent] at this
            · cases hb : b
              · rw [hb] at h4
                simp at h4
              · rfl
          · simp at h2
        · intro hb
          rw [hb]
          apply List.mem_append.mpr
          left
          apply List.mem_append.mpr
          right
          simp
    · intro q hqf hqb
      rw [hstep]
      rw [contentOf_upsert_ne _ fp q _ hqf]
      cases hb : b
      · rw [if_neg (by simp)]
      · rw [if_pos rfl]
        exact contentOf_upsert_ne v (bakPath fp) q _ hqb

/-- Witness for C9 at a concrete input: a document with no query block is
left untouched — the vault is returned as-is and no backup event is
logged. -/
theorem claim_C9_witness :
    (convertStep (fun _ => none) true v2w ["n.md".data]).1 = v2w ∧
    ∀ p, ¬(LogEvent.backedUp p ∈
      (convertStep (fun _ => none) true v2w ["n.md".data]).2.1) :=
  (claim_C9_write_iff_changed (fun _ => none) true v2w ["n.md".data]).2.2.1
    (by decide)

/-- A YAML parser instance that always fails (no document in the fixtures
below carries frontmatter, so it is never consulted). -/
def ypNone : YParse := fun _ => none

/-- Fixture for the C1 counterexample: `b.md` holds a `TABLE K` query;
`a.md`'s inline metadata value for `K` is itself a complete `dataview`
fence.  The first pass renders that value into `b.md`'s table. -/
def cexVault : Vault :=
  ⟨[(["b.md".data], "```dataview\nTABLE K\n```\n".data),
    (["a.md".data], "K:: ```dataview LIST ```\n".data)], [[]]⟩

/-- The file system after the first full conversion run on `cexVault`. -/
def cexPass1 : Vault :=
  match convertVault ypNone true cexVault with
  | .ok r => r.1
  | .error _ => cexVault

/-- A segment is kept verbatim by substitution: plain text, or a block
whose processing returns the span unchanged. -/
def segNoneB (yp : YParse) (v : Vault) (fp : FsPath) : Seg → Bool
  | .plain _ => true
  | .block _ inner => ((processInner yp v fp inner).1).isNone

/-- C1 counterexample: after the first conversion run on `cexVault`,
`b.md` was rewritten and its text now contains a recognized, supported
`LIST` fence (smuggled in through `a.md`'s metadata value), so the second
pass marks `b.md` changed again and rewrites it — the first run's output
is not a fixed point of block substitution. -/
theorem claim_C1_counterexample :
    ¬(contentOf cexPass1 ["b.md".data] = contentOf cexVault ["b.md".data]) ∧
    (subText ypNone cexPass1 ["b.md".data] (contentOf cexPass1 ["b.md".data])).2.1 = true ∧
    (convertStep ypNone true cexPass1 ["b.md".data]).2.2 = true := by
  decide

/-- C1 (amended): whether a span is substituted depends only on its own
inner text — never on the file-system state or the metadata parser — so
whenever the first run's output contains no supported query fence with
columns (every remaining fenced block processes to "keep verbatim"), the
second pass returns the text unchanged with the changed flag false for
every document, and (by C9) no file is rewritten.  The proviso can fail
only when a substituted replacement itself contains a fence, which happens
exactly when a resolved metadata value smuggles one in (see the
counterexample). -/
theorem claim_C1_second_pass_fixed (yp yp2 : YParse) (v v2 : Vault)
    (fp fp2 : FsPath) (t : List Char)
    (h : ∀ seg ∈ scanText (subText yp v fp t).1, segNoneB yp2 v2 fp2 seg = true) :
    (subText yp2 v2 fp2 (subText yp v fp t).1).1 = (subText yp v fp t).1 ∧
    (subText yp2 v2 fp2 (subText yp v fp t).1).2.1 = false := by
  apply subText_of_none
  intro seg hs
  have hb := h seg hs
  cases seg with
  | plain s => rfl
  | block o i =>
    simp only [segNoneB] at hb
    cases hpr : processInner yp2 v2 fp2 i with
    | mk oo lg =>
      cases oo with
      | none => simp [applySeg, hpr]
      | some r =>
        rw [hpr] at hb
        simp at hb

/-- Witness for C1 (amended) at a concrete input: a document whose only
fence is unsupported is unchanged by the first pass, satisfies the
proviso, and is a fixed point of the second pass. -/
theorem claim_C1_witness :
    (subText ypNone v2w ["n.md".data]
      (subText ypNone v2w ["n.md".data] "x ```dataview\njs\n``` y".data).1).1 =
      (subText ypNone v2w ["n.md".data] "x ```dataview\njs\n``` y".data).1 ∧
    (subText ypNone v2w ["n.md".data]
      (subText ypNone v2w ["n.md".data] "x ```dataview\njs\n``` y".data).1).2.1 = false :=
  claim_C1_second_pass_fixed ypNone ypNone v2w v2w ["n.md".data] ["n.md".data]
    "x ```dataview\njs\n``` y".data (by decide)

end DataviewConverter



